import Mathlib

/-
Verification of the plugin-registry refresh tool (scripts/refresh_plugins.py).

The script maintains a marketplace registry of plugin entries.  Its core is:
  * `merge_plugin`   — field-level reconciliation of a registry entry with an
                       upstream plugin manifest,
  * `validate_marketplace` / `validate_plugin_config` — schema-driven
                       validation plus duplicate-name detection,
  * `bump_version`   — semantic-version bump arithmetic,
  * `cmd_refresh`    — the refresh orchestrator (modelled here as a pure core
                       over an explicit fetch oracle).

JSON documents are embedded as the inductive `JValue`; Python dicts are
association lists of (key, value) pairs in insertion order (Python dicts are
ordered).  JSON numbers are modelled as integers (no claim involves
non-integral numbers).  Fallible Python code (statements that can raise) is
embedded with `Except`.
-/

/-- A JSON value.  Python dicts preserve insertion order, so objects are
association lists; a well-formed parsed document has `Nodup` keys. -/
inductive JValue where
  | null
  | bool (b : Bool)
  | num (n : Int)
  | str (s : String)
  | arr (elems : List JValue)
  | obj (fields : List (String × JValue))

/-- A Python dict holding JSON data (association list in insertion order). -/
abbrev JDict := List (String × JValue)

/-- Python `k in d` for a dict. -/
def hasKey (d : JDict) (k : String) : Bool := (List.lookup k d).isSome

/-- Python `d[k] = v`: replace the value in place if the key exists
(keeping its position), otherwise append the new key at the end. -/
def dictSet (d : JDict) (k : String) (v : JValue) : JDict :=
  if hasKey d k then d.map (fun kv => if kv.1 = k then (k, v) else kv)
  else d ++ [(k, v)]

/-- Python `del d[k]` (dict keys are unique, so removing all matches of a
key agrees with deleting the single entry). -/
def delKey (d : JDict) (k : String) : JDict := d.filter (fun kv => kv.1 ≠ k)

/-- Fields that the marketplace controls — never overwritten from source
(`PROTECTED_FIELDS` in the script; a frozenset, modelled as a list). -/
def PROTECTED_FIELDS : List String := ["name", "source"]

/-- Marketplace-specific fields, preserved from the entry when the source
does not provide them (`MARKETPLACE_ONLY_FIELDS` in the script). -/
def MARKETPLACE_ONLY_FIELDS : List String := ["category", "tags", "strict"]

/-- Canonical key order for merged plugin entries (`_KEY_ORDER`). -/
def KEY_ORDER : List String :=
  ["name", "source", "version", "description", "author", "homepage",
   "repository", "license", "keywords", "category", "tags", "strict"]

/-- Modelled from the spec: the property names of the marketplace schema's
`pluginEntry` definition (`_documented_plugin_fields` reads them from
`schema/marketplace.schema.json`, a data file of this repository that is not
under `src/`).  Per the spec's data model these are the protected fields,
the registry-only fields, and the shared descriptive fields — exactly the
canonical key list of the script. -/
def documentedPluginFields : List String := KEY_ORDER

/-- Modelled from the spec: the property names of the marketplace schema's
`author` definition (`_documented_author_fields`; the schema file is not
under `src/`).  The spec's data model declares the author sub-object as
`(name, email, url)`. -/
def documentedAuthorFields : List String := ["name", "email", "url"]

/-- `_filter_author`: keep only schema-documented author fields; `none`
models Python `None` (returned both for a non-dict argument and when the
filtered dict — Python local `filtered` — is empty/falsy). -/
def _filter_author : JValue → Option JDict
  | .obj kvs =>
      if (kvs.filter (fun kv => documentedAuthorFields.contains kv.1)).isEmpty then
        none
      else some (kvs.filter (fun kv => documentedAuthorFields.contains kv.1))
  | _ => none

/-- Rank of a key in the canonical order: `order.get(kv[0], len(_KEY_ORDER))`
(`List.indexOf` returns the length when the key is absent, as in the script). -/
def keyRank (k : String) : Nat := KEY_ORDER.indexOf k

/-- Comparison realising Python's ascending sort by the tuple
`(order.get(key, len(_KEY_ORDER)), key)`. -/
def entryLe (a b : String × JValue) : Prop :=
  keyRank a.1 < keyRank b.1 ∨ (keyRank a.1 = keyRank b.1 ∧ a.1 ≤ b.1)

instance : DecidableRel entryLe := fun a b =>
  inferInstanceAs
    (Decidable (keyRank a.1 < keyRank b.1 ∨ (keyRank a.1 = keyRank b.1 ∧ a.1 ≤ b.1)))

instance : IsTotal (String × JValue) entryLe where
  total a b := by
    rcases Nat.lt_trichotomy (keyRank a.1) (keyRank b.1) with h | h | h
    · exact Or.inl (Or.inl h)
    · rcases le_total a.1 b.1 with h' | h'
      · exact Or.inl (Or.inr ⟨h, h'⟩)
      · exact Or.inr (Or.inr ⟨h.symm, h'⟩)
    · exact Or.inr (Or.inl h)

instance : IsTrans (String × JValue) entryLe where
  trans a b c hab hbc := by
    rcases hab with hab | ⟨hab, hab'⟩ <;> rcases hbc with hbc | ⟨hbc, hbc'⟩
    · exact Or.inl (hab.trans hbc)
    · exact Or.inl (hbc ▸ hab)
    · exact Or.inl (hab ▸ hbc)
    · exact Or.inr ⟨hab.trans hbc, hab'.trans hbc'⟩

/-- `_ordered_dict`: return the dict with keys in canonical order
(a stable ascending sort by the `(rank, key)` tuple, as Python's `sorted`;
the sort key is injective on the distinct keys of a dict, so which stable
sorting algorithm is used is irrelevant). -/
def _ordered_dict (d : JDict) : JDict := List.insertionSort entryLe d

/-- One copy loop of `merge_plugin`: for each field of `fields` (the script
iterates a set; any enumeration yields the same dict since each key is
written at most once), copy it from `src` into the accumulator if present.
Deep copies are the identity in this pure model. -/
def copyFields (src : JDict) (fields : List String) (init : JDict) : JDict :=
  fields.foldl
    (fun m f => match List.lookup f src with
      | some v => dictSet m f v
      | none => m)
    init

/-- The set `keep_from_entry = PROTECTED_FIELDS | MARKETPLACE_ONLY_FIELDS`. -/
def keep_from_entry : List String := PROTECTED_FIELDS ++ MARKETPLACE_ONLY_FIELDS

/-- The set `documented - PROTECTED_FIELDS` iterated by the second loop. -/
def documentedNonProtected : List String :=
  documentedPluginFields.filter (fun f => !(PROTECTED_FIELDS.contains f))

/-- The dict after the two copy loops of `merge_plugin`: protected and
marketplace-only fields from the entry, then documented fields from the
source (overwriting). -/
def mergeStep2 (entry source : JDict) : JDict :=
  copyFields source documentedNonProtected (copyFields entry keep_from_entry [])

/-- The dict built by `merge_plugin` just before the final `_ordered_dict`
call: the two copy loops followed by author sanitisation. -/
def mergePreOrder (entry source : JDict) : JDict :=
  match List.lookup "author" (mergeStep2 entry source) with
  | some a =>
      match _filter_author a with
      | some kvs => dictSet (mergeStep2 entry source) "author" (.obj kvs)
      | none => delKey (mergeStep2 entry source) "author"
  | none => mergeStep2 entry source

/-- `merge_plugin`: merge source fields into a marketplace plugin entry. -/
def merge_plugin (entry source : JDict) : JDict :=
  _ordered_dict (mergePreOrder entry source)

/- ── Version bumping (§4.3) ─────────────────────────────────────────── -/

/-- Split a character list at every occurrence of `c` (the accumulator holds
the current component reversed).  `splitOnChar c []` is `[[]]`, matching
`str.split` semantics: an empty string yields one empty component. -/
def splitOnCharAux (c : Char) : List Char → List Char → List (List Char)
  | [], acc => [acc.reverse]
  | x :: xs, acc =>
      if x == c then acc.reverse :: splitOnCharAux c xs []
      else splitOnCharAux c xs (x :: acc)

/-- Split a character list at every occurrence of `c`. -/
def splitOnChar (c : Char) (s : List Char) : List (List Char) :=
  splitOnCharAux c s []

/-- Split at the first occurrence of `c`: the part before it, and (when `c`
occurs) the part after it. -/
def splitFirstChar (c : Char) : List Char → List Char × Option (List Char)
  | [] => ([], none)
  | x :: xs =>
      if x == c then ([], some xs)
      else
        let r := splitFirstChar c xs
        (x :: r.1, r.2)

/-- A numeric core component of a semantic version: nonempty, all ASCII
digits, no leading zero (`0 | [1-9][0-9]*`). -/
def isNumericCore (s : List Char) : Bool :=
  !s.isEmpty && s.all Char.isDigit && (s == ['0'] || s.head? != some '0')

/-- Characters allowed in pre-release and build identifiers
(`[0-9A-Za-z-]`). -/
def isIdentChar (c : Char) : Bool := c.isAlpha || c.isDigit || c == '-'

/-- A pre-release identifier: nonempty, alphanumeric/hyphen, and — when
purely numeric — without leading zeros. -/
def validPrereleaseId (s : List Char) : Bool :=
  !s.isEmpty && s.all isIdentChar &&
    (!s.all Char.isDigit || (s == ['0'] || s.head? != some '0'))

/-- A build-metadata identifier: nonempty, alphanumeric/hyphen (leading
zeros allowed). -/
def validBuildId (s : List Char) : Bool := !s.isEmpty && s.all isIdentChar

/-- Decimal value of a digit string. -/
def digitsToNat (s : List Char) : Nat :=
  s.foldl (fun n c => n * 10 + (c.toNat - 48)) 0

/-- A parsed semantic version (`semver.Version`): three-component numeric
core plus optional pre-release and build-metadata suffixes, kept as raw
character lists. -/
structure SemVer where
  major : Nat
  minor : Nat
  patch : Nat
  prerelease : Option (List Char)
  build : Option (List Char)

/-- Modelled from the spec: the script parses versions with the external
`semver` library (`semver.Version.parse`), which is not part of this
repository; this follows §4.3's grammar (semver 2.0.0): a dotted numeric
three-component core with no leading zeros, an optional `-prerelease`
suffix of dot-separated nonempty alphanumeric/hyphen identifiers (numeric
identifiers without leading zeros), and an optional `+build` suffix of
dot-separated nonempty alphanumeric/hyphen identifiers.  The build suffix
starts at the first `+`; the pre-release suffix starts at the first `-`
before it (the core never contains `-`). -/
def parse_semver (version : String) : Option SemVer :=
  let mb := splitFirstChar '+' version.data
  let cp := splitFirstChar '-' mb.1
  match splitOnChar '.' cp.1 with
  | [ma, mi, pa] =>
      if isNumericCore ma && isNumericCore mi && isNumericCore pa
          && (match cp.2 with
              | none => true
              | some p => (splitOnChar '.' p).all validPrereleaseId)
          && (match mb.2 with
              | none => true
              | some b => (splitOnChar '.' b).all validBuildId) then
        some ⟨digitsToNat ma, digitsToNat mi, digitsToNat pa, cp.2, mb.2⟩
      else none
  | _ => none

/-- Decimal digits of `n`, most significant first, prepended to `acc`;
fuelled so that the definition is structurally recursive (any fuel
`≥ n` suffices since a number has at most `n + 1` digits). -/
def natDigits : Nat → Nat → List Char → List Char
  | 0, _, acc => acc
  | fuel + 1, n, acc =>
      if n == 0 then acc
      else natDigits fuel (n / 10) (Char.ofNat (48 + n % 10) :: acc)

/-- Decimal rendering of a natural number (as `str` of a Python int). -/
def natChars (n : Nat) : List Char :=
  if n == 0 then ['0'] else natDigits (n + 1) n []

/-- Rendering of a bare `major.minor.patch` core (`str` of a `semver`
version carrying no pre-release and no build suffix). -/
def coreChars (ma mi pa : Nat) : List Char :=
  natChars ma ++ '.' :: natChars mi ++ '.' :: natChars pa

/-- The typed error for invalid version strings (§4.3 `InvalidVersionError`;
the script surfaces it as the `ValueError` raised by `semver`). -/
inductive InvalidVersionError where
  | invalidVersion
  deriving DecidableEq

/-- `bump_version`: finalize a pre-release (strip all suffixes), otherwise
increment the patch segment and discard build metadata. -/
def bump_version (version : String) : Except InvalidVersionError String :=
  match parse_semver version with
  | none => .error .invalidVersion
  | some v =>
      if v.prerelease.isSome then .ok ⟨coreChars v.major v.minor v.patch⟩
      else .ok ⟨coreChars v.major v.minor (v.patch + 1)⟩

/- ── Validation (§4.1) ──────────────────────────────────────────────── -/

/-- Python runtime exceptions the script can raise (beyond the typed
version error). -/
inductive PyError where
  | attributeError (msg : String)
  | typeError (msg : String)
  | keyError (k : String)
  | valueError (msg : String)
  deriving DecidableEq

/-- Decimal rendering of a natural number as a string. -/
def natString (n : Nat) : String := ⟨natChars n⟩

/-- Python `str(x)` for hashable scalar values (all that can reach the
duplicate-name message; unhashable values raise before being printed). -/
def pyStr : JValue → String
  | .null => "None"
  | .bool true => "True"
  | .bool false => "False"
  | .num n => if n < 0 then "-" ++ natString n.natAbs else natString n.natAbs
  | .str s => s
  | .arr _ => ""
  | .obj _ => ""

/-- Whether a Python value is hashable (may be put in a `set`). -/
def pyHashable : JValue → Bool
  | .arr _ => false
  | .obj _ => false
  | _ => true

/-- Python `==` on hashable scalar values, as used by `name in seen`.
(Python's cross-type numeric equality such as `True == 1` is not modelled;
plugin names are strings in any registry the schema accepts.) -/
def scalarEq : JValue → JValue → Bool
  | .null, .null => true
  | .bool a, .bool b => a == b
  | .num a, .num b => a == b
  | .str a, .str b => a == b
  | _, _ => false

/-- The duplicate-name error message
`f'plugins.{i}.name: Duplicate plugin name "{name}"'`. -/
def dupMsg (i : Nat) (name : JValue) : String :=
  "plugins." ++ natString i ++ ".name: Duplicate plugin name \"" ++ pyStr name ++ "\""

/-- Python iteration (`for x in v`): lists yield elements, strings yield
one-character strings, dicts yield their keys, everything else raises
`TypeError`. -/
def pyIterate : JValue → Except PyError (List JValue)
  | .arr xs => .ok xs
  | .str s => .ok (s.data.map (fun c => .str ⟨[c]⟩))
  | .obj kvs => .ok (kvs.map (fun kv => .str kv.1))
  | _ => .error (.typeError "object is not iterable")

/-- Python `x.get(k)`: `None` for a missing key, `AttributeError` when `x`
is not a dict. -/
def pyDictGet : JValue → String → Except PyError (Option JValue)
  | .obj kvs, k => .ok (List.lookup k kvs)
  | _, _ => .error (.attributeError "object has no attribute get")

/-- The duplicate-plugin-name loop of `validate_marketplace`, embedded
faithfully including the exceptions it raises on malformed input:
`plugin.get("name")` raises `AttributeError` on a non-dict element, and
putting an unhashable name into the `seen` set raises `TypeError`.
Arguments: current index, the `seen` set (as a list), the error list
accumulated so far (schema errors come first), remaining elements. -/
def dupNameCheck : Nat → List JValue → List String → List JValue →
    Except PyError (List String)
  | _, _, errs, [] => .ok errs
  | i, seen, errs, p :: rest => do
      let nameOpt ← pyDictGet p "name"
      match nameOpt with
      | none => dupNameCheck (i + 1) seen errs rest
      | some .null => dupNameCheck (i + 1) seen errs rest
      | some name =>
          if pyHashable name then
            if seen.any (scalarEq name) then
              dupNameCheck (i + 1) (name :: seen) (errs ++ [dupMsg i name]) rest
            else dupNameCheck (i + 1) (name :: seen) errs rest
          else .error (.typeError "unhashable type")

/-- Index/value pairs of a list starting at `i` (Python `enumerate`). -/
def enumerateFrom (i : Nat) : List JValue → List (Nat × JValue)
  | [] => []
  | x :: xs => (i, x) :: enumerateFrom (i + 1) xs

/-- Modelled from the spec: per-entry structural errors of the marketplace
schema (the schema file `schema/marketplace.schema.json` is not under
`src/`).  Entries must be objects with required `name` and `source` and a
closed set of documented properties; messages are `path: description` as
formatted by `_format_error`. -/
def entrySchemaErrors (i : Nat) (p : JValue) : List String :=
  match p with
  | .obj kvs =>
      (if (List.lookup "name" kvs).isSome then []
       else ["plugins." ++ natString i ++ ": name is a required property"])
      ++ (if (List.lookup "source" kvs).isSome then []
          else ["plugins." ++ natString i ++ ": source is a required property"])
      ++ kvs.filterMap (fun kv =>
          if documentedPluginFields.contains kv.1 then none
          else some ("plugins." ++ natString i ++
            ": additional properties are not allowed (" ++ kv.1 ++ ")"))
  | _ => ["plugins." ++ natString i ++ ": is not of type object"]

/-- Modelled from the spec: the structural (jsonschema) validation errors
for the marketplace document — required top-level fields, the `plugins`
array type check, and per-entry checks.  The jsonschema library collects
these without raising. -/
def schemaErrors (marketplace : JDict) : List String :=
  (if hasKey marketplace "name" then []
   else ["(root): name is a required property"])
  ++ (if hasKey marketplace "owner" then []
      else ["(root): owner is a required property"])
  ++ (if hasKey marketplace "plugins" then []
      else ["(root): plugins is a required property"])
  ++ (match List.lookup "plugins" marketplace with
      | some (.arr ps) =>
          (enumerateFrom 0 ps).flatMap (fun ip => entrySchemaErrors ip.1 ip.2)
      | some _ => ["plugins: is not of type array"]
      | none => [])

/-- `validate_marketplace`: the schema pass (which only collects error
messages) followed by the duplicate-name loop over
`marketplace.get("plugins", [])`.  The loop is embedded faithfully: it can
raise on malformed input, which the `Except` layer records. -/
def validate_marketplace (marketplace : JDict) : Except PyError (List String) := do
  let errors := schemaErrors marketplace
  let plugins := (List.lookup "plugins" marketplace).getD (.arr [])
  let items ← pyIterate plugins
  dupNameCheck 0 [] errors items

/-- Modelled from the spec: the plugin-manifest schema validation
(`validate_plugin_config` reads `schema/plugin.schema.json`, not under
`src/`).  The manifest declares `name` (required) plus the shared
descriptive fields, closed-world. -/
def pluginManifestFields : List String :=
  ["name", "version", "description", "author", "homepage", "repository",
   "license", "keywords"]

/-- Modelled from the spec: `validate_plugin_config` — returns the list of
error messages for a fetched `plugin.json` manifest. -/
def validate_plugin_config (config : JValue) : List String :=
  match config with
  | .obj kvs =>
      (if (List.lookup "name" kvs).isSome then []
       else ["(root): name is a required property"])
      ++ kvs.filterMap (fun kv =>
          if pluginManifestFields.contains kv.1 then none
          else some (kv.1 ++ ": additional properties are not allowed"))
  | _ => ["(root): is not of type object"]

/- ── Serialization and the refresh orchestrator (§4.4) ──────────────── -/

/-- JSON string escaping for `json.dumps(..., ensure_ascii=False)`:
quotes and backslashes are escaped, common control characters use their
short forms, all other characters (including non-ASCII) stay literal.
(Rare control characters are left as-is; only serialization of equal
inputs to equal output matters to the claims.) -/
def escapeChar (c : Char) : List Char :=
  if c == '"' then ['\\', '"']
  else if c == '\\' then ['\\', '\\']
  else if c == '\n' then ['\\', 'n']
  else if c == '\t' then ['\\', 't']
  else if c == '\r' then ['\\', 'r']
  else [c]

/-- Escape a string's characters for JSON output. -/
def escapeString (s : String) : String := ⟨s.data.flatMap escapeChar⟩

/-- Python `str` of an int (used for JSON number output). -/
def intString (n : Int) : String :=
  if n < 0 then "-" ++ natString n.natAbs else natString n.natAbs

/-- Indentation for nesting level `lvl` at 2 spaces per level. -/
def indentStr (lvl : Nat) : String := ⟨List.replicate (lvl * 2) ' '⟩

mutual

/-- `json.dumps(v, indent=2, ensure_ascii=False)` at nesting level `lvl`. -/
def jsonDumpsAt : Nat → JValue → String
  | _, .null => "null"
  | _, .bool true => "true"
  | _, .bool false => "false"
  | _, .num n => intString n
  | _, .str s => "\"" ++ escapeString s ++ "\""
  | lvl, .arr xs =>
      if xs.isEmpty then "[]"
      else "[\n" ++
        String.intercalate ",\n"
          ((jsonDumpsList (lvl + 1) xs).map (fun s => indentStr (lvl + 1) ++ s))
        ++ "\n" ++ indentStr lvl ++ "]"
  | lvl, .obj kvs =>
      if kvs.isEmpty then "\x7b\x7d"
      else "\x7b\n" ++
        String.intercalate ",\n"
          ((jsonDumpsObj (lvl + 1) kvs).map (fun s => indentStr (lvl + 1) ++ s))
        ++ "\n" ++ indentStr lvl ++ "\x7d"

/-- Rendered elements of an array. -/
def jsonDumpsList : Nat → List JValue → List String
  | _, [] => []
  | lvl, x :: xs => jsonDumpsAt lvl x :: jsonDumpsList lvl xs

/-- Rendered `"key": value` items of an object. -/
def jsonDumpsObj : Nat → JDict → List String
  | _, [] => []
  | lvl, kv :: kvs =>
      ("\"" ++ escapeString kv.1 ++ "\": " ++ jsonDumpsAt lvl kv.2) ::
        jsonDumpsObj lvl kvs

end

/-- `json.dumps(marketplace, indent=2, ensure_ascii=False)` as used for the
change-detection snapshots in `cmd_refresh`. -/
def jsonDumps (v : JValue) : String := jsonDumpsAt 0 v

/-- One iteration of the refresh loop of `cmd_refresh`, given the fetch
outcome the network oracle produces for this entry (`fetched`; a `.error`
models any exception out of `fetch_plugin_config`).  Returns the possibly
replaced entry together with this entry's error flag.  Statements outside
the `try` block can raise: a missing `name` key, a `source` that is neither
a string nor a dict, and a github source without `repo` propagate as
exceptions.  Inside the `try` block, failures are caught and recorded. -/
def processEntry (fetched : Except String JValue) (plugin : JValue) :
    Except PyError (JValue × Bool) :=
  match plugin with
  | .obj kvs =>
      match List.lookup "name" kvs with
      | none => .error (.keyError "name")
      | some _ =>
          match (List.lookup "source" kvs).getD (.obj []) with
          | .str _ => .ok (plugin, false)
          | .obj skvs =>
              match List.lookup "source" skvs with
              | some (.str t) =>
                  if t == "github" then
                    match List.lookup "repo" skvs with
                    | none => .error (.keyError "repo")
                    | some _ =>
                        match fetched with
                        | .error _ => .ok (plugin, true)
                        | .ok config =>
                            if (validate_plugin_config config).isEmpty then
                              match config with
                              | .obj ckvs => .ok (.obj (merge_plugin kvs ckvs), false)
                              | _ => .ok (plugin, true)
                            else .ok (plugin, true)
                  else .ok (plugin, false)
              | _ => .ok (plugin, false)
          | _ => .error (.attributeError "object has no attribute get")
  | _ => .error (.typeError "plugin is not a dict")

/-- The whole refresh loop: processes entries in order, collecting the
replaced list and the `had_errors` flag (an `or` over the entries). -/
def processAll (fetch : Nat → Except String JValue) :
    Nat → List JValue → Except PyError (List JValue × Bool)
  | _, [] => .ok ([], false)
  | i, p :: rest => do
      let r ← processEntry (fetch i) p
      let rs ← processAll fetch (i + 1) rest
      .ok (r.1 :: rs.1, r.2 || rs.2)

/-- The in-place list mutation `plugins[i] = merged` of the refresh loop:
it is visible in the marketplace only when the iterated list came out of
the marketplace itself (when `plugins` is absent, the default `[]` is a
fresh list and the marketplace stays untouched). -/
def updateMarketplace (marketplace : JDict) (newPs : List JValue) : JDict :=
  match List.lookup "plugins" marketplace with
  | some (.arr _) => dictSet marketplace "plugins" (.arr newPs)
  | _ => marketplace

/-- The version-bump step of `cmd_refresh`: read
`marketplace.get("metadata", {}).get("version", "0.0.0")` (raising on a
non-dict `metadata` or non-string version, as the Python does), bump it
(an invalid version raises `ValueError` out of `bump_version`, uncaught),
and write it back via `marketplace.setdefault("metadata", {})`. -/
def refreshBump (marketplace : JDict) (hadErr : Bool) :
    Except PyError (JDict × Bool) := do
  let current ← (match List.lookup "metadata" marketplace with
    | none => .ok "0.0.0"
    | some (.obj mkvs) =>
        match List.lookup "version" mkvs with
        | none => .ok "0.0.0"
        | some (.str s) => .ok s
        | some _ => .error (.typeError "version is not a string")
    | some _ => .error (.attributeError "object has no attribute get") :
    Except PyError String)
  let nextVer ← (match bump_version current with
    | .ok s => .ok s
    | .error _ => .error (.valueError "invalid version") :
    Except PyError String)
  match List.lookup "metadata" marketplace with
  | some (.obj mkvs) =>
      .ok (dictSet marketplace "metadata"
        (.obj (dictSet mkvs "version" (.str nextVer))), hadErr)
  | some _ => .ok (marketplace, hadErr)
  | none =>
      .ok (dictSet marketplace "metadata" (.obj [("version", .str nextVer)]), hadErr)

/-- Change detection of `cmd_refresh`: compare the serialized post-loop
registry to the pre-loop snapshot; bump the version only when they
differ. -/
def refreshDetect (original updatedM : JDict) (hadErr : Bool) :
    Except PyError (JDict × Bool) :=
  if jsonDumps (.obj updatedM) == jsonDumps (.obj original) then
    .ok (updatedM, hadErr)
  else refreshBump updatedM hadErr

/-- Steps 4-5 of `cmd_refresh` after the loop: write the mutated list back,
detect changes, bump if needed. -/
def refreshFinish (marketplace : JDict) (r : List JValue × Bool) :
    Except PyError (JDict × Bool) :=
  refreshDetect marketplace (updateMarketplace marketplace r.1) r.2

/-- The pure core of `cmd_refresh` between the pre-validation and the
post-validation: snapshot, refresh loop over `plugins`, change detection,
version bump.  `fetch` is the network oracle giving each entry index its
fetch outcome.  File loading, logging, post-validation and persistence are
process-level concerns that do not touch the metadata version and are not
modelled. -/
def cmd_refresh_core (marketplace : JDict) (fetch : Nat → Except String JValue) :
    Except PyError (JDict × Bool) := do
  let pluginsV := (List.lookup "plugins" marketplace).getD (.arr [])
  let items ← pyIterate pluginsV
  let r ← processAll fetch 0 items
  refreshFinish marketplace r


/-- The registry's `metadata.version` field, when present as a nested
value. -/
def metadataVersion (m : JDict) : Option JValue :=
  (List.lookup "metadata" m).bind (fun v =>
    match v with
    | .obj mkvs => List.lookup "version" mkvs
    | _ => none)

-- Sanity checks against the repository's tests (TestMergePlugin).
example :
    List.lookup "name"
      (merge_plugin
        [("name", .str "kept-name"),
         ("source", .obj [("source", .str "github"), ("repo", .str "kept/repo")])]
        [("name", .str "overwritten"), ("version", .str "2.0.0")])
      = some (.str "kept-name") := rfl

example :
    merge_plugin
      [("name", .str "n"), ("source", .str "s"),
       ("category", .str "tools"), ("tags", .arr [.str "t1"])]
      [("version", .str "1.0.0")]
      = [("name", .str "n"), ("source", .str "s"), ("version", .str "1.0.0"),
         ("category", .str "tools"), ("tags", .arr [.str "t1"])] := rfl

example :
    merge_plugin
      [("name", .str "n"), ("source", .str "s"), ("category", .str "old")]
      [("category", .str "new")]
      = [("name", .str "n"), ("source", .str "s"), ("category", .str "new")] := rfl

example :
    merge_plugin [("name", .str "n"), ("source", .str "s")]
      [("author", .obj [("name", .str "dev"), ("bogus", .bool true)])]
      = [("name", .str "n"), ("source", .str "s"),
         ("author", .obj [("name", .str "dev")])] := rfl

example :
    merge_plugin [("name", .str "n"), ("source", .str "s")]
      [("author", .obj [("bogus", .bool true)])]
      = [("name", .str "n"), ("source", .str "s")] := rfl

-- Sanity checks against the repository's tests (TestBumpVersion).
example : bump_version "0.0.0" = .ok "0.0.1" := rfl
example : bump_version "1.2.3" = .ok "1.2.4" := rfl
example : bump_version "0.1.9" = .ok "0.1.10" := rfl
example : bump_version "0.1.0-beta" = .ok "0.1.0" := rfl
example : bump_version "1.0.0-rc.1" = .ok "1.0.0" := rfl
example : bump_version "1.2.3+build.42" = .ok "1.2.4" := rfl
example : bump_version "1.0.0-beta+sha.abc" = .ok "1.0.0" := rfl
example : bump_version "" = .error .invalidVersion := rfl
example : bump_version "1" = .error .invalidVersion := rfl
example : bump_version "1.2" = .error .invalidVersion := rfl
example : bump_version "01.2.3" = .error .invalidVersion := rfl
example : bump_version "v1.2.3" = .error .invalidVersion := rfl
example : bump_version "1.0.0-01" = .error .invalidVersion := rfl


/- ── Lemmas: association-list dictionaries ──────────────────────────── -/

theorem lookupCons (k a : String) (b : JValue) (d : JDict) :
    List.lookup k ((a, b) :: d) = if k = a then some b else List.lookup k d := by
  by_cases h : k = a
  · subst h; simp [List.lookup]
  · simp [List.lookup, beq_eq_false_iff_ne.mpr h, h]

theorem lookup_isSome_iff_mem_keys (d : JDict) (k : String) :
    (List.lookup k d).isSome ↔ k ∈ d.map Prod.fst := by
  induction d with
  | nil => simp
  | cons kv rest ih =>
    rcases kv with ⟨a, b⟩
    by_cases hk : k = a <;> simp [lookupCons, hk, ih]

theorem lookup_eq_none_iff (d : JDict) (k : String) :
    List.lookup k d = none ↔ k ∉ d.map Prod.fst := by
  rw [← lookup_isSome_iff_mem_keys]
  cases List.lookup k d <;> simp

theorem lookup_isSome_of_mem (d : JDict) (kv : String × JValue) (h : kv ∈ d) :
    (List.lookup kv.1 d).isSome := by
  rw [lookup_isSome_iff_mem_keys]
  exact List.mem_map_of_mem Prod.fst h

theorem lookup_replace_ne (d : JDict) (k k' : String) (v : JValue) (h : k' ≠ k) :
    List.lookup k' (d.map (fun kv => if kv.1 = k then (k, v) else kv)) =
      List.lookup k' d := by
  induction d with
  | nil => simp
  | cons kv rest ih =>
    rcases kv with ⟨a, b⟩
    by_cases hak : a = k
    · subst hak
      simp [lookupCons, h, ih]
    · simp only [List.map_cons, if_neg hak, lookupCons]
      by_cases hk : k' = a <;> simp [hk, ih]

theorem lookup_replace_self (d : JDict) (k : String) (v : JValue)
    (h : (List.lookup k d).isSome = true) :
    List.lookup k (d.map (fun kv => if kv.1 = k then (k, v) else kv)) = some v := by
  induction d with
  | nil => simp at h
  | cons kv rest ih =>
    rcases kv with ⟨a, b⟩
    by_cases hak : a = k
    · subst hak
      simp [List.map_cons, lookupCons]
    · simp only [List.map_cons, if_neg hak, lookupCons, if_neg (Ne.symm hak)] at h ⊢
      exact ih h

theorem lookup_append_dict (l₁ l₂ : JDict) (k : String) :
    List.lookup k (l₁ ++ l₂) =
      match List.lookup k l₁ with
      | some v => some v
      | none => List.lookup k l₂ := by
  induction l₁ with
  | nil => simp
  | cons kv rest ih =>
    rcases kv with ⟨a, b⟩
    by_cases hk : k = a <;> simp [lookupCons, hk, ih]

theorem lookup_dictSet (d : JDict) (k k' : String) (v : JValue) :
    List.lookup k' (dictSet d k v) = if k' = k then some v else List.lookup k' d := by
  unfold dictSet hasKey
  split
  · rename_i h
    by_cases hk : k' = k
    · subst hk
      rw [if_pos rfl]
      exact lookup_replace_self d k' v h
    · rw [if_neg hk]
      exact lookup_replace_ne d k k' v hk
  · rename_i h
    have hnone : List.lookup k d = none := by
      cases hl : List.lookup k d with
      | none => rfl
      | some w => exact absurd (by simp [hl]) h
    rw [lookup_append_dict]
    by_cases hk : k' = k
    · subst hk
      simp [hnone, lookupCons]
    · cases hl : List.lookup k' d with
      | none => simp [lookupCons, hk]
      | some w => simp [hk]

theorem keys_dictSet_of_hasKey (d : JDict) (k : String) (v : JValue)
    (h : hasKey d k = true) :
    (dictSet d k v).map Prod.fst = d.map Prod.fst := by
  unfold dictSet
  rw [if_pos h, List.map_map]
  apply List.map_congr_left
  intro kv _
  by_cases hk : kv.1 = k
  · simp [Function.comp, hk]
  · simp [Function.comp, hk]

theorem nodup_keys_dictSet (d : JDict) (k : String) (v : JValue)
    (h : (d.map Prod.fst).Nodup) : ((dictSet d k v).map Prod.fst).Nodup := by
  by_cases hk : hasKey d k = true
  · rw [keys_dictSet_of_hasKey d k v hk]; exact h
  · unfold dictSet
    rw [if_neg hk]
    have hnotmem : k ∉ d.map Prod.fst := by
      rw [← lookup_isSome_iff_mem_keys]
      unfold hasKey at hk
      simpa using hk
    simp [List.nodup_append, h, hnotmem]

theorem lookup_delKey (d : JDict) (k k' : String) :
    List.lookup k' (delKey d k) = if k' = k then none else List.lookup k' d := by
  induction d with
  | nil => by_cases hk : k' = k <;> simp [delKey, hk]
  | cons kv rest ih =>
    rcases kv with ⟨a, b⟩
    by_cases hak : a = k
    · subst hak
      have hd : delKey ((a, b) :: rest) a = delKey rest a := by simp [delKey]
      rw [hd, ih]
      by_cases hk : k' = a <;> simp [lookupCons, hk]
    · have hd : delKey ((a, b) :: rest) k = (a, b) :: delKey rest k := by
        simp [delKey, hak]
      rw [hd]
      by_cases hk : k' = a
      · subst hk
        have hne : ¬k' = k := fun hkk => hak (hkk ▸ rfl)
        simp [lookupCons, hne]
      · simp [lookupCons, hk, ih]

theorem nodup_keys_delKey (d : JDict) (k : String)
    (h : (d.map Prod.fst).Nodup) : ((delKey d k).map Prod.fst).Nodup := by
  have hsub : List.Sublist ((delKey d k).map Prod.fst) (d.map Prod.fst) :=
    List.Sublist.map Prod.fst (List.filter_sublist d)
  exact h.sublist hsub

/- ── Lemmas: the copy loops and the pre-sort merge dict ─────────────── -/

theorem copyFields_cons (src : JDict) (f : String) (fs : List String) (init : JDict) :
    copyFields src (f :: fs) init =
      copyFields src fs
        (match List.lookup f src with
         | some v => dictSet init f v
         | none => init) := by
  simp only [copyFields, List.foldl_cons]

theorem lookup_copyFields (src : JDict) (fields : List String) (init : JDict)
    (k : String) (hnd : fields.Nodup) :
    List.lookup k (copyFields src fields init) =
      if k ∈ fields ∧ (List.lookup k src).isSome then List.lookup k src
      else List.lookup k init := by
  induction fields generalizing init with
  | nil => simp [copyFields]
  | cons f fs ih =>
    have hf : f ∉ fs := (List.nodup_cons.mp hnd).1
    have hnd' : fs.Nodup := (List.nodup_cons.mp hnd).2
    rw [copyFields_cons, ih _ hnd']
    by_cases hk : k = f
    · subst hk
      cases hsrc : List.lookup k src with
      | some v => simp [hf, hsrc, lookup_dictSet]
      | none => simp [hf, hsrc]
    · have hiff : ∀ A B : Option JValue,
          (if k ∈ fs ∧ (List.lookup k src).isSome = true then A else B) =
            (if k ∈ f :: fs ∧ (List.lookup k src).isSome = true then A else B) := by
        intro A B
        by_cases hs : (List.lookup k src).isSome = true
        · by_cases hm : k ∈ fs
          · rw [if_pos ⟨hm, hs⟩, if_pos ⟨List.mem_cons_of_mem f hm, hs⟩]
          · rw [if_neg (fun h => hm h.1),
              if_neg (fun h => hm ((List.mem_cons.mp h.1).resolve_left hk))]
        · rw [if_neg (fun h => hs h.2), if_neg (fun h => hs h.2)]
      cases hsrc : List.lookup f src with
      | some v =>
          show (if k ∈ fs ∧ (List.lookup k src).isSome = true then List.lookup k src
            else List.lookup k (dictSet init f v)) = _
          rw [lookup_dictSet, if_neg hk]
          exact hiff _ _
      | none =>
          exact hiff _ _

theorem nodup_keys_copyFields (src : JDict) (fields : List String) (init : JDict)
    (h : (init.map Prod.fst).Nodup) :
    ((copyFields src fields init).map Prod.fst).Nodup := by
  induction fields generalizing init with
  | nil => simpa [copyFields] using h
  | cons f fs ih =>
    rw [copyFields_cons]
    cases List.lookup f src with
    | some v => exact ih _ (nodup_keys_dictSet init f v h)
    | none => exact ih _ h

theorem nodup_keys_mergeStep2 (E M : JDict) :
    ((mergeStep2 E M).map Prod.fst).Nodup :=
  nodup_keys_copyFields _ _ _ (nodup_keys_copyFields _ _ _ (by simp))

theorem nodup_keys_mergePreOrder (E M : JDict) :
    ((mergePreOrder E M).map Prod.fst).Nodup := by
  unfold mergePreOrder
  split
  · split
    · exact nodup_keys_dictSet _ _ _ (nodup_keys_mergeStep2 E M)
    · exact nodup_keys_delKey _ _ (nodup_keys_mergeStep2 E M)
  · exact nodup_keys_mergeStep2 E M

theorem mergePreOrder_lookup_ne_author (E M : JDict) (k : String)
    (hk : k ≠ "author") :
    List.lookup k (mergePreOrder E M) = List.lookup k (mergeStep2 E M) := by
  unfold mergePreOrder
  split
  · split
    · simp [lookup_dictSet, hk]
    · simp [lookup_delKey, hk]
  · rfl

theorem mergePreOrder_lookup (E M : JDict) (k : String) (hk : k ≠ "author") :
    List.lookup k (mergePreOrder E M) =
      if k ∈ documentedNonProtected ∧ (List.lookup k M).isSome then
        List.lookup k M
      else if k ∈ keep_from_entry ∧ (List.lookup k E).isSome then
        List.lookup k E
      else none := by
  rw [mergePreOrder_lookup_ne_author E M k hk, mergeStep2,
    lookup_copyFields M documentedNonProtected _ k (by decide),
    lookup_copyFields E keep_from_entry _ k (by decide)]
  simp

theorem lookup_author_mergeStep2 (E M : JDict) :
    List.lookup "author" (mergeStep2 E M) = List.lookup "author" M := by
  rw [mergeStep2, lookup_copyFields M documentedNonProtected _ _ (by decide),
    lookup_copyFields E keep_from_entry _ _ (by decide)]
  have hdnp : "author" ∈ documentedNonProtected := by decide
  have hkeep : "author" ∉ keep_from_entry := by decide
  cases hm : List.lookup "author" M <;> simp [hdnp, hkeep, hm]

theorem mergePreOrder_lookup_author (E M : JDict) :
    List.lookup "author" (mergePreOrder E M) =
      (List.lookup "author" M).bind (fun a => (_filter_author a).map JValue.obj) := by
  unfold mergePreOrder
  have hbase := lookup_author_mergeStep2 E M
  split
  · rename_i a heq
    rw [hbase] at heq
    rw [heq]
    split
    · rename_i kvs hf
      simp [hf, lookup_dictSet]
    · rename_i hf
      simp [hf, lookup_delKey]
  · rename_i heq
    rw [hbase] at heq
    simp [hbase, heq]

theorem perm_lookup_eq : ∀ {l1 l2 : JDict}, l1.Perm l2 →
    (l1.map Prod.fst).Nodup → ∀ k, List.lookup k l1 = List.lookup k l2 := by
  intro l1 l2 p
  induction p with
  | nil => intro _ k; rfl
  | cons x p ih =>
    intro h k
    rcases x with ⟨a, b⟩
    simp only [List.map_cons, List.nodup_cons] at h
    by_cases hk : k = a <;> simp [lookupCons, hk, ih h.2 k]
  | swap x y l =>
    intro h k
    rcases x with ⟨a, b⟩
    rcases y with ⟨c, d⟩
    simp only [List.map_cons, List.nodup_cons, List.mem_cons] at h
    have hca : c ≠ a := fun hc => h.1 (Or.inl hc)
    by_cases hk1 : k = c <;> by_cases hk2 : k = a
    · exact absurd (hk1.symm.trans hk2) hca
    · simp [lookupCons, hk1, hk2, hca]
    · simp [lookupCons, hk1, hk2, Ne.symm hca]
    · simp [lookupCons, hk1, hk2]
  | trans p1 p2 ih1 ih2 =>
    intro h k
    have h2 := ((p1.map Prod.fst).nodup_iff).mp h
    exact (ih1 h k).trans (ih2 h2 k)

theorem lookup_ordered_dict (d : JDict) (h : (d.map Prod.fst).Nodup) (k : String) :
    List.lookup k (_ordered_dict d) = List.lookup k d := by
  have p : (_ordered_dict d).Perm d := List.perm_insertionSort entryLe d
  have h' : ((_ordered_dict d).map Prod.fst).Nodup :=
    ((p.map Prod.fst).nodup_iff).mpr h
  exact perm_lookup_eq p h' k

theorem lookup_merge_plugin (E M : JDict) (k : String) :
    List.lookup k (merge_plugin E M) = List.lookup k (mergePreOrder E M) :=
  lookup_ordered_dict _ (nodup_keys_mergePreOrder E M) k

/- ── Merge lookup specialisations ───────────────────────────────────── -/

theorem lookup_merge_aux_keepOnly (E M : JDict) (k : String)
    (h1 : k ∉ documentedNonProtected) (h2 : k ∈ keep_from_entry)
    (h3 : k ≠ "author") :
    List.lookup k (merge_plugin E M) = List.lookup k E := by
  rw [lookup_merge_plugin, mergePreOrder_lookup E M k h3]
  cases he : List.lookup k E <;> simp [h1, h2, he]

theorem lookup_merge_aux_both (E M : JDict) (k : String)
    (h1 : k ∈ documentedNonProtected) (h2 : k ∈ keep_from_entry)
    (h3 : k ≠ "author") :
    List.lookup k (merge_plugin E M) =
      (match List.lookup k M with
       | some v => some v
       | none => List.lookup k E) := by
  rw [lookup_merge_plugin, mergePreOrder_lookup E M k h3]
  cases hm : List.lookup k M with
  | none => cases he : List.lookup k E <;> simp [h1, h2, hm, he]
  | some v => simp [h1, hm]

theorem lookup_merge_aux_srcOnly (E M : JDict) (k : String)
    (h1 : k ∈ documentedNonProtected) (h2 : k ∉ keep_from_entry)
    (h3 : k ≠ "author") :
    List.lookup k (merge_plugin E M) = List.lookup k M := by
  rw [lookup_merge_plugin, mergePreOrder_lookup E M k h3]
  cases hm : List.lookup k M <;> simp [h1, h2, hm]

theorem lookup_merge_author (E M : JDict) :
    List.lookup "author" (merge_plugin E M) =
      (List.lookup "author" M).bind (fun a => (_filter_author a).map JValue.obj) := by
  rw [lookup_merge_plugin, mergePreOrder_lookup_author]

theorem lookup_merge_outside (E M : JDict) (k : String)
    (h1 : k ∉ documentedNonProtected) (h2 : k ∉ keep_from_entry)
    (h3 : k ≠ "author") :
    List.lookup k (merge_plugin E M) = none := by
  rw [lookup_merge_plugin, mergePreOrder_lookup E M k h3]
  simp [h1, h2]

theorem filter_author_some (a : JValue) (kvs : JDict)
    (hf : _filter_author a = some kvs) :
    kvs ≠ [] ∧ ∀ p ∈ kvs, p.1 ∈ documentedAuthorFields := by
  cases a with
  | obj akvs =>
      have hf2 : (if (akvs.filter
            (fun kv => documentedAuthorFields.contains kv.1)).isEmpty = true
          then none
          else some (akvs.filter
            (fun kv => documentedAuthorFields.contains kv.1))) = some kvs := hf
      by_cases he : (akvs.filter
          (fun kv => documentedAuthorFields.contains kv.1)).isEmpty = true
      · rw [if_pos he] at hf2
        exact Option.noConfusion hf2
      · rw [if_neg he] at hf2
        have hkvs := Option.some.inj hf2
        constructor
        · intro hnil
          exact he (by rw [hkvs, hnil]; rfl)
        · intro p hp
          rw [← hkvs] at hp
          have := List.of_mem_filter hp
          simpa using this
  | null => exact Option.noConfusion hf
  | bool b => exact Option.noConfusion hf
  | num n => exact Option.noConfusion hf
  | str s => exact Option.noConfusion hf
  | arr xs => exact Option.noConfusion hf

/- ── Claim theorems: the merge policy ───────────────────────────────── -/

/-- C1: for every registry entry E and upstream manifest M, the merged
entry has the same `name` and `source` as E — the protected fields are
taken from the entry, never from the manifest, and a protected field
absent from E is absent from the merged entry. -/
theorem merge_plugin_protected_fields (entry source : JDict) :
    List.lookup "name" (merge_plugin entry source) = List.lookup "name" entry ∧
    List.lookup "source" (merge_plugin entry source) = List.lookup "source" entry :=
  ⟨lookup_merge_aux_keepOnly entry source "name" (by decide) (by decide) (by decide),
   lookup_merge_aux_keepOnly entry source "source" (by decide) (by decide) (by decide)⟩

/-- C5: for every registry-only field F (`category`, `tags`, `strict`):
if F is absent from the manifest the merged entry keeps E's value, and if
F is present in the manifest the manifest's value wins. -/
theorem merge_plugin_marketplace_only_fields (entry source : JDict) (k : String)
    (hk : k ∈ MARKETPLACE_ONLY_FIELDS) :
    (List.lookup k source = none →
        List.lookup k (merge_plugin entry source) = List.lookup k entry) ∧
    (∀ v, List.lookup k source = some v →
        List.lookup k (merge_plugin entry source) = some v) := by
  have h1 : k ∈ documentedNonProtected := by fin_cases hk <;> decide
  have h2 : k ∈ keep_from_entry := by fin_cases hk <;> decide
  have h3 : k ≠ "author" := by fin_cases hk <;> decide
  constructor
  · intro hm
    rw [lookup_merge_aux_both entry source k h1 h2 h3, hm]
  · intro v hm
    rw [lookup_merge_aux_both entry source k h1 h2 h3, hm]

theorem merge_plugin_marketplace_only_fields_witness :
    List.lookup "category"
      (merge_plugin [("category", JValue.str "old")] []) = some (JValue.str "old") ∧
    List.lookup "category"
      (merge_plugin [("category", JValue.str "old")] [("category", JValue.str "new")])
      = some (JValue.str "new") := by
  constructor
  · rw [(merge_plugin_marketplace_only_fields [("category", JValue.str "old")] []
      "category" (by decide)).1 rfl]
    rfl
  · exact (merge_plugin_marketplace_only_fields [("category", JValue.str "old")]
      [("category", JValue.str "new")] "category" (by decide)).2 (JValue.str "new") rfl

/-- C9: the merged entry's `author`, when present, is the manifest's author
restricted to the schema-declared author sub-fields, is never an empty
object, and is absent entirely when the manifest's author is not an object
or sanitises to empty. -/
theorem merge_plugin_author_sanitized (entry source : JDict) :
    List.lookup "author" (merge_plugin entry source) =
      (List.lookup "author" source).bind (fun a => (_filter_author a).map JValue.obj) ∧
    ∀ v, List.lookup "author" (merge_plugin entry source) = some v →
      ∃ kvs, v = JValue.obj kvs ∧ kvs ≠ [] ∧
        ∀ p ∈ kvs, p.1 ∈ documentedAuthorFields := by
  refine ⟨lookup_merge_author entry source, ?_⟩
  intro v hv
  rw [lookup_merge_author] at hv
  cases hm : List.lookup "author" source with
  | none => rw [hm] at hv; simp at hv
  | some a =>
    rw [hm] at hv
    simp only [Option.some_bind] at hv
    cases hf : _filter_author a with
    | none => rw [hf] at hv; simp at hv
    | some kvs =>
      rw [hf] at hv
      simp at hv
      exact ⟨kvs, hv.symm, (filter_author_some a kvs hf).1,
        (filter_author_some a kvs hf).2⟩

theorem merge_plugin_author_sanitized_witness :
    List.lookup "author"
      (merge_plugin [("name", JValue.str "n")]
        [("author", JValue.obj [("name", JValue.str "dev"), ("bogus", JValue.bool true)])])
      = some (JValue.obj [("name", JValue.str "dev")]) ∧
    List.lookup "author"
      (merge_plugin [("name", JValue.str "n")]
        [("author", JValue.obj [("bogus", JValue.bool true)])]) = none := by
  constructor
  · rw [(merge_plugin_author_sanitized [("name", JValue.str "n")]
      [("author", JValue.obj [("name", JValue.str "dev"), ("bogus", JValue.bool true)])]).1]
    rfl
  · rw [(merge_plugin_author_sanitized [("name", JValue.str "n")]
      [("author", JValue.obj [("bogus", JValue.bool true)])]).1]
    rfl

/-- C4 counterexample: `author` is a schema-documented field that is neither
protected nor registry-only and is present in the manifest, yet the merged
entry does not carry the manifest's value for it verbatim (the author
sub-object is sanitised, here to absence). -/
theorem merge_plugin_shared_verbatim_counterexample :
    "author" ∈ documentedPluginFields ∧ "author" ∉ PROTECTED_FIELDS ∧
    "author" ∉ MARKETPLACE_ONLY_FIELDS ∧
    (List.lookup "author"
      [("author", JValue.obj [("bogus", JValue.bool true)])]).isSome = true ∧
    List.lookup "author"
        (merge_plugin [("name", JValue.str "p")]
          [("author", JValue.obj [("bogus", JValue.bool true)])]) ≠
      List.lookup "author" [("author", JValue.obj [("bogus", JValue.bool true)])] := by
  refine ⟨by decide, by decide, by decide, rfl, ?_⟩
  intro h
  rw [show List.lookup "author"
      (merge_plugin [("name", JValue.str "p")]
        [("author", JValue.obj [("bogus", JValue.bool true)])]) = none from rfl] at h
  exact Option.noConfusion h

/-- C4 (amended): for every schema-documented field F that is neither
protected nor registry-only, if F is absent from the manifest then F is
absent from the merged entry even when present in E; and — except for
`author`, whose value is additionally sanitised per the author rule — if F
is present in the manifest the merged entry carries the manifest's value. -/
theorem merge_plugin_shared_fields (entry source : JDict) (k : String)
    (hd : k ∈ documentedPluginFields) (hp : k ∉ PROTECTED_FIELDS)
    (hmo : k ∉ MARKETPLACE_ONLY_FIELDS) :
    (k ≠ "author" → ∀ v, List.lookup k source = some v →
        List.lookup k (merge_plugin entry source) = some v) ∧
    (List.lookup k source = none →
        List.lookup k (merge_plugin entry source) = none) := by
  have h2 : k ∉ keep_from_entry := by
    intro hkeep
    rcases List.mem_append.mp hkeep with h | h
    · exact hp h
    · exact hmo h
  have h1 : k ∈ documentedNonProtected := by
    apply List.mem_filter.mpr
    refine ⟨hd, ?_⟩
    simp only [Bool.not_eq_eq_eq_not, Bool.not_true]
    cases hcc : PROTECTED_FIELDS.contains k
    · rfl
    · exact absurd (by simpa using hcc) hp
  constructor
  · intro hna v hv
    rw [lookup_merge_aux_srcOnly entry source k h1 h2 hna, hv]
  · intro hv
    by_cases hna : k = "author"
    · subst hna
      rw [lookup_merge_author, hv]
      rfl
    · rw [lookup_merge_aux_srcOnly entry source k h1 h2 hna, hv]

theorem merge_plugin_shared_fields_witness :
    List.lookup "version"
      (merge_plugin
        [("name", JValue.str "n"), ("version", JValue.str "1.0.0"),
         ("description", JValue.str "old")]
        [("version", JValue.str "2.0.0")]) = some (JValue.str "2.0.0") ∧
    List.lookup "description"
      (merge_plugin
        [("name", JValue.str "n"), ("description", JValue.str "old")]
        [("version", JValue.str "2.0.0")]) = none := by
  constructor
  · exact (merge_plugin_shared_fields _ _ "version" (by decide) (by decide)
      (by decide)).1 (by decide) _ rfl
  · exact (merge_plugin_shared_fields _ _ "description" (by decide) (by decide)
      (by decide)).2 rfl

/- ── Lemmas: canonical form of the sorted merge result ──────────────── -/

theorem entryLe_antisymm_keys {a b : String × JValue} (h1 : entryLe a b)
    (h2 : entryLe b a) (hne : a.1 ≠ b.1) : False := by
  rcases h1 with h1 | ⟨h1, h1'⟩ <;> rcases h2 with h2 | ⟨h2, h2'⟩
  · exact absurd (h1.trans h2) (lt_irrefl _)
  · exact absurd (h2 ▸ h1) (lt_irrefl _)
  · exact absurd (h1 ▸ h2) (lt_irrefl _)
  · exact hne (le_antisymm h1' h2')

theorem sorted_nodup_keys_eq : ∀ {l1 : JDict} {l2 : JDict}, l1.Perm l2 →
    List.Sorted entryLe l1 → List.Sorted entryLe l2 →
    (l1.map Prod.fst).Nodup → l1 = l2 := by
  intro l1
  induction l1 with
  | nil =>
    intro l2 p _ _ _
    exact (p.symm.eq_nil).symm
  | cons a t1 ih =>
    intro l2 p hs1 hs2 hnd
    cases l2 with
    | nil => exact absurd p.eq_nil (by simp)
    | cons b t2 =>
      have hmem_a : a ∈ b :: t2 := p.mem_iff.mp (List.mem_cons_self a t1)
      have hmem_b : b ∈ a :: t1 := p.symm.mem_iff.mp (List.mem_cons_self b t2)
      have hab : a = b := by
        rcases List.mem_cons.mp hmem_a with h | ha
        · exact h
        rcases List.mem_cons.mp hmem_b with h | hb
        · exact h.symm
        have h1 : entryLe a b := List.rel_of_sorted_cons hs1 b hb
        have h2 : entryLe b a := List.rel_of_sorted_cons hs2 a ha
        have hne : a.1 ≠ b.1 := by
          simp only [List.map_cons, List.nodup_cons] at hnd
          intro he
          exact hnd.1 (he ▸ List.mem_map_of_mem Prod.fst hb)
        exact (entryLe_antisymm_keys h1 h2 hne).elim
      subst hab
      have hnd' : (t1.map Prod.fst).Nodup := by
        simp only [List.map_cons, List.nodup_cons] at hnd
        exact hnd.2
      rw [ih p.cons_inv hs1.of_cons hs2.of_cons hnd']

theorem perm_cons_delKey (d : JDict) (k : String) (v : JValue)
    (h : List.lookup k d = some v) (hnd : (d.map Prod.fst).Nodup) :
    d.Perm ((k, v) :: delKey d k) := by
  induction d with
  | nil => simp at h
  | cons kv rest ih =>
    rcases kv with ⟨a, b⟩
    simp only [List.map_cons, List.nodup_cons] at hnd
    by_cases hak : k = a
    · subst hak
      rw [lookupCons, if_pos rfl] at h
      have hbv : b = v := Option.some.inj h
      subst hbv
      have hfil : delKey ((k, b) :: rest) k = rest := by
        simp only [delKey, List.filter_cons]
        rw [if_neg (by simp)]
        exact List.filter_eq_self.mpr (fun x hx => by
          simp only [decide_eq_true_eq]
          intro he
          exact hnd.1 (he ▸ List.mem_map_of_mem Prod.fst hx))
      rw [hfil]
    · rw [lookupCons, if_neg hak] at h
      have hd : delKey ((a, b) :: rest) k = (a, b) :: delKey rest k := by
        simp only [delKey, List.filter_cons]
        rw [if_pos (by simpa using fun he => hak he.symm)]
      rw [hd]
      exact (List.Perm.cons _ (ih h hnd.2)).trans (List.Perm.swap _ _ _)

theorem assoc_perm_canonical : ∀ (K : List String) (d : JDict),
    K.Nodup → (d.map Prod.fst).Nodup → (∀ kv ∈ d, kv.1 ∈ K) →
    d.Perm (K.filterMap (fun k => (List.lookup k d).map (fun v => (k, v)))) := by
  intro K
  induction K with
  | nil =>
    intro d _ _ hsub
    have hnil : d = [] :=
      List.eq_nil_iff_forall_not_mem.mpr (fun x hx => by simpa using hsub x hx)
    subst hnil
    simp
  | cons k K' ih =>
    intro d hK hnd hsub
    have hK' : K'.Nodup := (List.nodup_cons.mp hK).2
    have hkK' : k ∉ K' := (List.nodup_cons.mp hK).1
    cases hk : List.lookup k d with
    | some v =>
      have hperm := perm_cons_delKey d k v hk hnd
      have hnd' : ((delKey d k).map Prod.fst).Nodup := nodup_keys_delKey d k hnd
      have hsub' : ∀ kv ∈ delKey d k, kv.1 ∈ K' := by
        intro kv hkv
        have hin : kv ∈ d := List.mem_of_mem_filter hkv
        have hne : kv.1 ≠ k := by simpa using List.of_mem_filter hkv
        exact (List.mem_cons.mp (hsub kv hin)).resolve_left hne
      have ihd := ih (delKey d k) hK' hnd' hsub'
      have hcong : K'.filterMap
            (fun x => (List.lookup x (delKey d k)).map (fun v => (x, v)))
          = K'.filterMap (fun x => (List.lookup x d).map (fun v => (x, v))) :=
        List.filterMap_congr (fun x hx => by
          rw [lookup_delKey,
            if_neg (show ¬x = k from fun he => hkK' (he ▸ hx))])
      have hhead : (k :: K').filterMap
            (fun x => (List.lookup x d).map (fun v => (x, v)))
          = (k, v) :: K'.filterMap (fun x => (List.lookup x d).map (fun v => (x, v))) := by
        rw [List.filterMap_cons, hk]
        rfl
      rw [hhead]
      refine hperm.trans (List.Perm.cons _ ?_)
      rw [← hcong]
      exact ihd
    | none =>
      have hsub' : ∀ kv ∈ d, kv.1 ∈ K' := by
        intro kv hkv
        rcases List.mem_cons.mp (hsub kv hkv) with he | h
        · exact absurd (lookup_isSome_of_mem d kv hkv) (by rw [he, hk]; simp)
        · exact h
      have hhead : (k :: K').filterMap
            (fun x => (List.lookup x d).map (fun v => (x, v)))
          = K'.filterMap (fun x => (List.lookup x d).map (fun v => (x, v))) := by
        rw [List.filterMap_cons, hk]
        rfl
      rw [hhead]
      exact ih d hK' hnd hsub'

theorem pairwise_rank_key_order :
    List.Pairwise (fun a b : String => keyRank a < keyRank b) KEY_ORDER := by
  decide

theorem sorted_canonical (d : JDict) :
    List.Sorted entryLe
      (KEY_ORDER.filterMap (fun k => (List.lookup k d).map (fun v => (k, v)))) := by
  apply List.pairwise_filterMap.mpr
  refine pairwise_rank_key_order.imp ?_
  intro a b hab x hx y hy
  simp only [Option.mem_def, Option.map_eq_some'] at hx hy
  obtain ⟨va, _, hxa⟩ := hx
  obtain ⟨vb, _, hyb⟩ := hy
  rw [← hxa, ← hyb]
  exact Or.inl hab

theorem ordered_dict_canonical (d : JDict) (hnd : (d.map Prod.fst).Nodup)
    (hsub : ∀ kv ∈ d, kv.1 ∈ KEY_ORDER) :
    _ordered_dict d =
      KEY_ORDER.filterMap (fun k => (List.lookup k d).map (fun v => (k, v))) := by
  apply sorted_nodup_keys_eq
  · exact (List.perm_insertionSort entryLe d).trans
      (assoc_perm_canonical KEY_ORDER d (by decide) hnd hsub)
  · exact List.sorted_insertionSort entryLe d
  · exact sorted_canonical d
  · exact ((List.perm_insertionSort entryLe d).map Prod.fst).nodup_iff.mpr hnd

theorem mergePreOrder_keys_sub (E M : JDict) :
    ∀ kv ∈ mergePreOrder E M, kv.1 ∈ KEY_ORDER := by
  intro kv hkv
  by_contra hout
  have h3 : kv.1 ≠ "author" :=
    fun he => hout (he ▸ (by decide : "author" ∈ KEY_ORDER))
  have h1 : kv.1 ∉ documentedNonProtected :=
    fun hm => hout (List.mem_of_mem_filter hm)
  have h2 : kv.1 ∉ keep_from_entry :=
    fun hm => hout ((by decide : ∀ x ∈ keep_from_entry, x ∈ KEY_ORDER) kv.1 hm)
  have hsome := lookup_isSome_of_mem _ kv hkv
  rw [mergePreOrder_lookup E M kv.1 h3] at hsome
  simp [h1, h2] at hsome

theorem merge_plugin_canonical (E M : JDict) :
    merge_plugin E M =
      KEY_ORDER.filterMap
        (fun k => (List.lookup k (mergePreOrder E M)).map (fun v => (k, v))) :=
  ordered_dict_canonical _ (nodup_keys_mergePreOrder E M) (mergePreOrder_keys_sub E M)

theorem preOrder_idem_keepOnly (E M : JDict) (k : String)
    (h1 : k ∉ documentedNonProtected) (h2 : k ∈ keep_from_entry)
    (h3 : k ≠ "author") :
    List.lookup k (mergePreOrder (merge_plugin E M) M) =
      List.lookup k (mergePreOrder E M) := by
  rw [mergePreOrder_lookup _ _ _ h3, mergePreOrder_lookup _ _ _ h3,
    lookup_merge_aux_keepOnly E M k h1 h2 h3]

theorem preOrder_idem_both (E M : JDict) (k : String)
    (h1 : k ∈ documentedNonProtected) (h2 : k ∈ keep_from_entry)
    (h3 : k ≠ "author") :
    List.lookup k (mergePreOrder (merge_plugin E M) M) =
      List.lookup k (mergePreOrder E M) := by
  rw [mergePreOrder_lookup _ _ _ h3, mergePreOrder_lookup _ _ _ h3,
    lookup_merge_aux_both E M k h1 h2 h3]
  cases hs : List.lookup k M <;> cases he : List.lookup k E <;>
    simp [hs, he, h1, h2]

theorem preOrder_idem_srcOnly (E M : JDict) (k : String)
    (h1 : k ∈ documentedNonProtected) (h2 : k ∉ keep_from_entry)
    (h3 : k ≠ "author") :
    List.lookup k (mergePreOrder (merge_plugin E M) M) =
      List.lookup k (mergePreOrder E M) := by
  rw [mergePreOrder_lookup _ _ _ h3, mergePreOrder_lookup _ _ _ h3]
  cases hs : List.lookup k M <;> simp [hs, h1, h2]

theorem preOrder_idem_author (E M : JDict) :
    List.lookup "author" (mergePreOrder (merge_plugin E M) M) =
      List.lookup "author" (mergePreOrder E M) := by
  rw [mergePreOrder_lookup_author, mergePreOrder_lookup_author]

/-- C10: merge is idempotent in its entry argument: re-merging the merged
entry against the same manifest reproduces it exactly, including key
order. -/
theorem merge_plugin_idempotent (entry source : JDict) :
    merge_plugin (merge_plugin entry source) source = merge_plugin entry source := by
  refine (merge_plugin_canonical (merge_plugin entry source) source).trans
    (Eq.trans ?_ (merge_plugin_canonical entry source).symm)
  apply List.filterMap_congr
  intro k hk
  suffices h : List.lookup k (mergePreOrder (merge_plugin entry source) source) =
      List.lookup k (mergePreOrder entry source) by rw [h]
  fin_cases hk
  · exact preOrder_idem_keepOnly entry source "name" (by decide) (by decide) (by decide)
  · exact preOrder_idem_keepOnly entry source "source" (by decide) (by decide) (by decide)
  · exact preOrder_idem_srcOnly entry source "version" (by decide) (by decide) (by decide)
  · exact preOrder_idem_srcOnly entry source "description" (by decide) (by decide) (by decide)
  · exact preOrder_idem_author entry source
  · exact preOrder_idem_srcOnly entry source "homepage" (by decide) (by decide) (by decide)
  · exact preOrder_idem_srcOnly entry source "repository" (by decide) (by decide) (by decide)
  · exact preOrder_idem_srcOnly entry source "license" (by decide) (by decide) (by decide)
  · exact preOrder_idem_srcOnly entry source "keywords" (by decide) (by decide) (by decide)
  · exact preOrder_idem_both entry source "category" (by decide) (by decide) (by decide)
  · exact preOrder_idem_both entry source "tags" (by decide) (by decide) (by decide)
  · exact preOrder_idem_both entry source "strict" (by decide) (by decide) (by decide)

/- ── Lemmas: the duplicate-name loop ────────────────────────────────── -/

theorem dupNameCheck_cons_obj (i : Nat) (seen : List JValue) (errs : List String)
    (kvs : JDict) (rest : List JValue) :
    dupNameCheck i seen errs (JValue.obj kvs :: rest) =
      match List.lookup "name" kvs with
      | none => dupNameCheck (i + 1) seen errs rest
      | some .null => dupNameCheck (i + 1) seen errs rest
      | some name =>
          if pyHashable name then
            if seen.any (scalarEq name) then
              dupNameCheck (i + 1) (name :: seen) (errs ++ [dupMsg i name]) rest
            else dupNameCheck (i + 1) (name :: seen) errs rest
          else .error (.typeError "unhashable type") := rfl

theorem dupNameCheck_extends : ∀ (l : List JValue) (i : Nat) (seen : List JValue)
    (errs out : List String), dupNameCheck i seen errs l = .ok out →
    ∃ tail, out = errs ++ tail := by
  intro l
  induction l with
  | nil =>
    intro i seen errs out h
    have heq : errs = out := by simpa [dupNameCheck] using h
    exact ⟨[], by simp [← heq]⟩
  | cons p rest ih =>
    intro i seen errs out h
    cases p with
    | obj kvs =>
      rw [dupNameCheck_cons_obj] at h
      cases hn : List.lookup "name" kvs with
      | none => rw [hn] at h; exact ih _ _ _ _ h
      | some name =>
        rw [hn] at h
        cases name with
        | null => exact ih _ _ _ _ h
        | bool b =>
            simp only [pyHashable, if_true] at h
            by_cases hseen : List.any seen (scalarEq (JValue.bool b)) = true
            · rw [if_pos hseen] at h
              obtain ⟨tail, ht⟩ := ih _ _ _ _ h
              exact ⟨dupMsg i (JValue.bool b) :: tail, by simpa using ht⟩
            · rw [if_neg hseen] at h
              exact ih _ _ _ _ h
        | num n =>
            simp only [pyHashable, if_true] at h
            by_cases hseen : List.any seen (scalarEq (JValue.num n)) = true
            · rw [if_pos hseen] at h
              obtain ⟨tail, ht⟩ := ih _ _ _ _ h
              exact ⟨dupMsg i (JValue.num n) :: tail, by simpa using ht⟩
            · rw [if_neg hseen] at h
              exact ih _ _ _ _ h
        | str s =>
            simp only [pyHashable, if_true] at h
            by_cases hseen : List.any seen (scalarEq (JValue.str s)) = true
            · rw [if_pos hseen] at h
              obtain ⟨tail, ht⟩ := ih _ _ _ _ h
              exact ⟨dupMsg i (JValue.str s) :: tail, by simpa using ht⟩
            · rw [if_neg hseen] at h
              exact ih _ _ _ _ h
        | arr xs => simp [pyHashable] at h
        | obj o => simp [pyHashable] at h
    | null => exact Except.noConfusion h
    | bool b => exact Except.noConfusion h
    | num n => exact Except.noConfusion h
    | str s => exact Except.noConfusion h
    | arr xs => exact Except.noConfusion h

theorem dupNameCheck_step_ok (p : JValue) (rest : List JValue) (i : Nat)
    (seen : List JValue) (errs out : List String)
    (h : dupNameCheck i seen errs (p :: rest) = .ok out) :
    ∃ seen2 errs2, dupNameCheck (i + 1) (seen2 ++ seen) errs2 rest = .ok out := by
  cases p with
  | obj kvs =>
    rw [dupNameCheck_cons_obj] at h
    cases hn : List.lookup "name" kvs with
    | none => rw [hn] at h; exact ⟨[], errs, h⟩
    | some name =>
      rw [hn] at h
      cases name with
      | null => exact ⟨[], errs, h⟩
      | bool b =>
          simp only [pyHashable, if_true] at h
          by_cases hseen : List.any seen (scalarEq (JValue.bool b)) = true
          · rw [if_pos hseen] at h
            exact ⟨[JValue.bool b], errs ++ [dupMsg i (JValue.bool b)], h⟩
          · rw [if_neg hseen] at h
            exact ⟨[JValue.bool b], errs, h⟩
      | num n =>
          simp only [pyHashable, if_true] at h
          by_cases hseen : List.any seen (scalarEq (JValue.num n)) = true
          · rw [if_pos hseen] at h
            exact ⟨[JValue.num n], errs ++ [dupMsg i (JValue.num n)], h⟩
          · rw [if_neg hseen] at h
            exact ⟨[JValue.num n], errs, h⟩
      | str s =>
          simp only [pyHashable, if_true] at h
          by_cases hseen : List.any seen (scalarEq (JValue.str s)) = true
          · rw [if_pos hseen] at h
            exact ⟨[JValue.str s], errs ++ [dupMsg i (JValue.str s)], h⟩
          · rw [if_neg hseen] at h
            exact ⟨[JValue.str s], errs, h⟩
      | arr xs => simp [pyHashable] at h
      | obj o => simp [pyHashable] at h
  | null => exact Except.noConfusion h
  | bool b => exact Except.noConfusion h
  | num n => exact Except.noConfusion h
  | str s => exact Except.noConfusion h
  | arr xs => exact Except.noConfusion h

theorem dupNameCheck_mem : ∀ (l : List JValue) (i : Nat) (seen : List JValue)
    (errs : List String) (j : Nat) (hj : j < l.length) (nv : JValue)
    (kvs : JDict),
    l.get ⟨j, hj⟩ = JValue.obj kvs →
    List.lookup "name" kvs = some nv →
    nv ≠ JValue.null →
    List.any seen (scalarEq nv) = true →
    ∀ out, dupNameCheck i seen errs l = .ok out → dupMsg (i + j) nv ∈ out := by
  intro l
  induction l with
  | nil =>
    intro i seen errs j hj
    exact absurd hj (by simp)
  | cons p rest ih =>
    intro i seen errs j hj nv kvs hget hn hnn hseen out h
    cases j with
    | zero =>
      have hp : p = JValue.obj kvs := hget
      subst hp
      rw [dupNameCheck_cons_obj, hn] at h
      cases nv with
      | null => exact absurd rfl hnn
      | bool b =>
          simp only [pyHashable, if_true] at h
          rw [if_pos hseen] at h
          obtain ⟨tail, ht⟩ := dupNameCheck_extends rest _ _ _ _ h
          rw [ht]
          simp
      | num n =>
          simp only [pyHashable, if_true] at h
          rw [if_pos hseen] at h
          obtain ⟨tail, ht⟩ := dupNameCheck_extends rest _ _ _ _ h
          rw [ht]
          simp
      | str s =>
          simp only [pyHashable, if_true] at h
          rw [if_pos hseen] at h
          obtain ⟨tail, ht⟩ := dupNameCheck_extends rest _ _ _ _ h
          rw [ht]
          simp
      | arr xs => exact absurd hseen (by simp [scalarEq, List.any_eq_true])
      | obj o => exact absurd hseen (by simp [scalarEq, List.any_eq_true])
    | succ jp =>
      obtain ⟨seen2, errs2, h2⟩ := dupNameCheck_step_ok p rest i seen errs out h
      have hj' : jp < rest.length := by
        simpa [Nat.succ_lt_succ_iff] using hj
      have hget' : rest.get ⟨jp, hj'⟩ = JValue.obj kvs := hget
      have hseen' : List.any (seen2 ++ seen) (scalarEq nv) = true := by
        rw [List.any_append]
        simp [hseen]
      have hmem := ih (i + 1) (seen2 ++ seen) errs2 jp hj' nv kvs hget' hn hnn
        hseen' out h2
      have harith : i + 1 + jp = i + (jp + 1) := by omega
      rwa [harith] at hmem

theorem dupNameCheck_dup_found : ∀ (l : List JValue) (i0 : Nat)
    (seen : List JValue) (errs : List String) (a b : Nat) (hab : a < b)
    (hb : b < l.length) (s : String) (kvsa kvsb : JDict),
    l.get ⟨a, lt_trans hab hb⟩ = JValue.obj kvsa →
    List.lookup "name" kvsa = some (JValue.str s) →
    l.get ⟨b, hb⟩ = JValue.obj kvsb →
    List.lookup "name" kvsb = some (JValue.str s) →
    ∀ out, dupNameCheck i0 seen errs l = .ok out →
      dupMsg (i0 + b) (JValue.str s) ∈ out := by
  intro l
  induction l with
  | nil =>
    intro i0 seen errs a b hab hb
    exact absurd hb (by simp)
  | cons p rest ih =>
    intro i0 seen errs a b hab hb s kvsa kvsb hga hna hgb hnb out h
    cases b with
    | zero => exact absurd hab (by omega)
    | succ bp =>
      have hb' : bp < rest.length := by
        simpa [Nat.succ_lt_succ_iff] using hb
      have hgb' : rest.get ⟨bp, hb'⟩ = JValue.obj kvsb := hgb
      cases a with
      | zero =>
        have hp : p = JValue.obj kvsa := hga
        subst hp
        rw [dupNameCheck_cons_obj, hna] at h
        simp only [pyHashable, if_true] at h
        have key : ∀ errs2, dupNameCheck (i0 + 1) (JValue.str s :: seen) errs2 rest
            = .ok out → dupMsg (i0 + (bp + 1)) (JValue.str s) ∈ out := by
          intro errs2 hh
          have hseen' : List.any (JValue.str s :: seen)
              (scalarEq (JValue.str s)) = true := by
            simp [scalarEq]
          have hmem := dupNameCheck_mem rest (i0 + 1) (JValue.str s :: seen)
            errs2 bp hb' (JValue.str s) kvsb hgb' hnb (by simp) hseen' out hh
          have harith : i0 + 1 + bp = i0 + (bp + 1) := by omega
          rwa [harith] at hmem
        by_cases hseen : List.any seen (scalarEq (JValue.str s)) = true
        · rw [if_pos hseen] at h
          exact key _ h
        · rw [if_neg hseen] at h
          exact key _ h
      | succ ap =>
        obtain ⟨seen2, errs2, h2⟩ := dupNameCheck_step_ok p rest i0 seen errs out h
        have hab' : ap < bp := by omega
        have hga' : rest.get ⟨ap, lt_trans hab' hb'⟩ = JValue.obj kvsa := hga
        have hmem := ih (i0 + 1) (seen2 ++ seen) errs2 ap bp hab' hb' s kvsa kvsb
          hga' hna hgb' hnb out h2
        have harith : i0 + 1 + bp = i0 + (bp + 1) := by omega
        rwa [harith] at hmem

theorem dupNameCheck_ok : ∀ (l : List JValue) (i : Nat) (seen : List JValue)
    (errs : List String),
    (∀ p ∈ l, ∃ kvs, p = JValue.obj kvs ∧
        ∀ v, List.lookup "name" kvs = some v → pyHashable v = true) →
    ∃ out, dupNameCheck i seen errs l = .ok out := by
  intro l
  induction l with
  | nil => intro i seen errs _; exact ⟨errs, rfl⟩
  | cons p rest ih =>
    intro i seen errs hgood
    obtain ⟨kvs, hp, hname⟩ := hgood p (List.mem_cons_self p rest)
    subst hp
    have hrest : ∀ p ∈ rest, ∃ kvs, p = JValue.obj kvs ∧
        ∀ v, List.lookup "name" kvs = some v → pyHashable v = true :=
      fun q hq => hgood q (List.mem_cons_of_mem _ hq)
    rw [dupNameCheck_cons_obj]
    cases hn : List.lookup "name" kvs with
    | none => exact ih _ _ _ hrest
    | some name =>
      have hh := hname name hn
      cases name with
      | null => exact ih _ _ _ hrest
      | bool b =>
          simp only [pyHashable, if_true]
          by_cases hseen : List.any seen (scalarEq (JValue.bool b)) = true
          · rw [if_pos hseen]; exact ih _ _ _ hrest
          · rw [if_neg hseen]; exact ih _ _ _ hrest
      | num n =>
          simp only [pyHashable, if_true]
          by_cases hseen : List.any seen (scalarEq (JValue.num n)) = true
          · rw [if_pos hseen]; exact ih _ _ _ hrest
          · rw [if_neg hseen]; exact ih _ _ _ hrest
      | str s =>
          simp only [pyHashable, if_true]
          by_cases hseen : List.any seen (scalarEq (JValue.str s)) = true
          · rw [if_pos hseen]; exact ih _ _ _ hrest
          · rw [if_neg hseen]; exact ih _ _ _ hrest
      | arr xs => exact absurd hh (by simp [pyHashable])
      | obj o => exact absurd hh (by simp [pyHashable])

/- ── Claim theorems: validation ─────────────────────────────────────── -/

/-- C2: the spec requires `validate` never to raise on malformed input
(non-list `plugins`, non-object entries), returning a descriptive error
list instead.  The code's duplicate-name loop iterates
`marketplace.get("plugins", [])` and calls `plugin.get("name")` with no
type guards, so it raises `AttributeError` on exactly those inputs — the
embedding returns the corresponding error value instead of an error
list. -/
theorem validate_marketplace_crash_on_malformed :
    validate_marketplace [("plugins", JValue.str "not-a-list")]
      = .error (.attributeError "object has no attribute get") ∧
    validate_marketplace
        [("name", JValue.str "m"),
         ("owner", JValue.obj [("name", JValue.str "o")]),
         ("plugins", JValue.arr [JValue.num 42, JValue.str "string"])]
      = .error (.attributeError "object has no attribute get") := ⟨rfl, rfl⟩

/-- C8: for a registry whose plugin list consists of object entries with
hashable `name` values (the shape of every schema-valid registry), any two
entries sharing the same string name make validation return — without
raising — an error message referencing the second entry's index and the
duplicate name. -/
theorem validate_marketplace_duplicate_names
    (mkt : JDict) (ps : List JValue)
    (hp : List.lookup "plugins" mkt = some (.arr ps))
    (hgood : ∀ p ∈ ps, ∃ kvs, p = JValue.obj kvs ∧
        ∀ v, List.lookup "name" kvs = some v → pyHashable v = true)
    (i j : Nat) (hij : i < j) (hj : j < ps.length) (s : String)
    (kvsi kvsj : JDict)
    (hgi : ps.get ⟨i, lt_trans hij hj⟩ = JValue.obj kvsi)
    (hni : List.lookup "name" kvsi = some (JValue.str s))
    (hgj : ps.get ⟨j, hj⟩ = JValue.obj kvsj)
    (hnj : List.lookup "name" kvsj = some (JValue.str s)) :
    ∃ errs, validate_marketplace mkt = .ok errs ∧
      dupMsg j (JValue.str s) ∈ errs := by
  obtain ⟨out, hout⟩ := dupNameCheck_ok ps 0 [] (schemaErrors mkt) hgood
  have hval : validate_marketplace mkt = dupNameCheck 0 [] (schemaErrors mkt) ps := by
    unfold validate_marketplace
    rw [hp]
    rfl
  have hmem := dupNameCheck_dup_found ps 0 [] (schemaErrors mkt) i j hij hj s
    kvsi kvsj hgi hni hgj hnj out hout
  have h0 : 0 + j = j := by omega
  rw [h0] at hmem
  exact ⟨out, hval.trans hout, hmem⟩

theorem validate_marketplace_duplicate_names_witness :
    (∃ errs, validate_marketplace
        [("name", JValue.str "test-marketplace"),
         ("owner", JValue.obj [("name", JValue.str "tester")]),
         ("plugins", JValue.arr
           [JValue.obj [("name", JValue.str "dup"), ("source", JValue.str "./a")],
            JValue.obj [("name", JValue.str "dup"), ("source", JValue.str "./b")]])]
      = .ok errs ∧ dupMsg 1 (JValue.str "dup") ∈ errs) ∧
    dupMsg 1 (JValue.str "dup")
      = "plugins.1.name: Duplicate plugin name \"dup\"" := by
  refine ⟨?_, rfl⟩
  refine validate_marketplace_duplicate_names
    [("name", JValue.str "test-marketplace"),
     ("owner", JValue.obj [("name", JValue.str "tester")]),
     ("plugins", JValue.arr
       [JValue.obj [("name", JValue.str "dup"), ("source", JValue.str "./a")],
        JValue.obj [("name", JValue.str "dup"), ("source", JValue.str "./b")]])]
    [JValue.obj [("name", JValue.str "dup"), ("source", JValue.str "./a")],
     JValue.obj [("name", JValue.str "dup"), ("source", JValue.str "./b")]]
    rfl ?_ 0 1 (by decide) (by decide) "dup" _ _ rfl rfl rfl rfl
  intro p hp
  rcases List.mem_cons.mp hp with h | hp2
  · exact ⟨[("name", JValue.str "dup"), ("source", JValue.str "./a")], h,
      fun v hv => (Option.some.inj hv) ▸ rfl⟩
  · rcases List.mem_cons.mp hp2 with h | h
    · exact ⟨[("name", JValue.str "dup"), ("source", JValue.str "./b")], h,
        fun v hv => (Option.some.inj hv) ▸ rfl⟩
    · exact absurd h (by simp)

/- ── Lemmas: the refresh core ───────────────────────────────────────── -/

theorem map_set_eq_self (d : JDict) (k : String) (v : JValue)
    (h : List.lookup k d = some v) (hnd : (d.map Prod.fst).Nodup) :
    d.map (fun kv => if kv.1 = k then (k, v) else kv) = d := by
  induction d with
  | nil => rfl
  | cons kv rest ih =>
    rcases kv with ⟨a, b⟩
    simp only [List.map_cons, List.nodup_cons] at hnd
    by_cases hak : a = k
    · subst hak
      rw [lookupCons, if_pos rfl] at h
      have hbv := Option.some.inj h
      subst hbv
      simp only [List.map_cons]
      have hrest : rest.map (fun kv => if kv.1 = a then (a, b) else kv) = rest := by
        have hcongr : ∀ kv ∈ rest,
            (if kv.1 = a then (a, b) else kv) = id kv := by
          intro kv hkv
          rw [if_neg (show ¬kv.1 = a from
            fun he => hnd.1 (he ▸ List.mem_map_of_mem Prod.fst hkv)), id]
        rw [List.map_congr_left hcongr, List.map_id]
      rw [hrest]
      simp
    · rw [lookupCons, if_neg (fun hh => hak hh.symm)] at h
      simp only [List.map_cons, if_neg hak]
      rw [ih h hnd.2]

theorem dictSet_eq_self (d : JDict) (k : String) (v : JValue)
    (h : List.lookup k d = some v) (hnd : (d.map Prod.fst).Nodup) :
    dictSet d k v = d := by
  unfold dictSet hasKey
  rw [h]
  simp only [Option.isSome_some, if_true]
  exact map_set_eq_self d k v h hnd

theorem processAll_cons (fetch : Nat → Except String JValue) (i : Nat)
    (p : JValue) (rest : List JValue) :
    processAll fetch i (p :: rest) =
      match processEntry (fetch i) p with
      | .error e => .error e
      | .ok r =>
          match processAll fetch (i + 1) rest with
          | .error e => .error e
          | .ok rs => .ok (r.1 :: rs.1, r.2 || rs.2) := by
  show Except.bind (processEntry (fetch i) p) _ = _
  cases processEntry (fetch i) p with
  | error e => rfl
  | ok r =>
    show Except.bind (processAll fetch (i + 1) rest) _ = _
    cases processAll fetch (i + 1) rest <;> rfl

theorem processAll_of_id (fetch : Nat → Except String JValue) :
    ∀ (ps : List JValue) (i : Nat),
    (∀ j (hj : j < ps.length), ∃ b,
        processEntry (fetch (i + j)) (ps.get ⟨j, hj⟩) = .ok (ps.get ⟨j, hj⟩, b)) →
    ∃ b, processAll fetch i ps = .ok (ps, b) := by
  intro ps
  induction ps with
  | nil => intro i _; exact ⟨false, rfl⟩
  | cons p rest ih =>
    intro i hid
    obtain ⟨b0, hb0⟩ := hid 0 (by simp)
    have hb0' : processEntry (fetch i) p = .ok (p, b0) := by simpa using hb0
    obtain ⟨b1, hb1⟩ := ih (i + 1) (fun j hj => by
      obtain ⟨b, hb⟩ := hid (j + 1) (by simpa using Nat.succ_lt_succ hj)
      refine ⟨b, ?_⟩
      have harith : i + (j + 1) = i + 1 + j := by omega
      rw [harith] at hb
      exact hb)
    refine ⟨b0 || b1, ?_⟩
    rw [processAll_cons, hb0', hb1]

theorem updateMarketplace_self (mkt : JDict) (ps : List JValue)
    (hp : List.lookup "plugins" mkt = some (.arr ps))
    (hnd : (mkt.map Prod.fst).Nodup) :
    updateMarketplace mkt ps = mkt := by
  unfold updateMarketplace
  rw [hp]
  exact dictSet_eq_self mkt "plugins" (.arr ps) hp hnd

theorem refreshDetect_self (mkt : JDict) (b : Bool) :
    refreshDetect mkt mkt b = .ok (mkt, b) := by
  unfold refreshDetect
  rw [if_pos (beq_self_eq_true _)]

theorem cmd_refresh_core_arr (mkt : JDict) (fetch : Nat → Except String JValue)
    (ps : List JValue) (hp : List.lookup "plugins" mkt = some (.arr ps)) :
    cmd_refresh_core mkt fetch =
      match processAll fetch 0 ps with
      | .error e => .error e
      | .ok r => refreshFinish mkt r := by
  unfold cmd_refresh_core
  rw [hp]
  show Except.bind (processAll fetch 0 ps) _ = _
  cases processAll fetch 0 ps <;> rfl

/-- C3: a refresh run in which every entry is processed to an identical
entry (identical before/after content) takes the unchanged branch of the
change detection and leaves the registry — in particular its
`metadata.version` — untouched. -/
theorem cmd_refresh_core_noop (mkt : JDict) (fetch : Nat → Except String JValue)
    (ps : List JValue)
    (hp : List.lookup "plugins" mkt = some (.arr ps))
    (hnd : (mkt.map Prod.fst).Nodup)
    (hid : ∀ j (hj : j < ps.length), ∃ b,
        processEntry (fetch j) (ps.get ⟨j, hj⟩) = .ok (ps.get ⟨j, hj⟩, b)) :
    ∃ res, cmd_refresh_core mkt fetch = .ok res ∧ res.1 = mkt ∧
      metadataVersion res.1 = metadataVersion mkt := by
  obtain ⟨b, hall⟩ := processAll_of_id fetch ps 0 (fun j hj => by
    simpa using hid j hj)
  refine ⟨(mkt, b), ?_, rfl, rfl⟩
  rw [cmd_refresh_core_arr mkt fetch ps hp, hall]
  show refreshFinish mkt (ps, b) = .ok (mkt, b)
  unfold refreshFinish
  rw [show updateMarketplace mkt ps = mkt from updateMarketplace_self mkt ps hp hnd]
  exact refreshDetect_self mkt b

theorem cmd_refresh_core_noop_witness :
    (∃ res, cmd_refresh_core
        [("name", JValue.str "test-marketplace"),
         ("owner", JValue.obj [("name", JValue.str "tester")]),
         ("plugins", JValue.arr
           [JValue.obj
             [("name", JValue.str "p"),
              ("source", JValue.obj
                [("source", JValue.str "github"), ("repo", JValue.str "owner/repo")]),
              ("version", JValue.str "1.0.0"),
              ("description", JValue.str "same")]]),
         ("metadata", JValue.obj [("version", JValue.str "0.0.1")])]
        (fun _ => Except.ok (JValue.obj
          [("name", JValue.str "p"), ("version", JValue.str "1.0.0"),
           ("description", JValue.str "same")]))
      = .ok res ∧
      res.1 =
        [("name", JValue.str "test-marketplace"),
         ("owner", JValue.obj [("name", JValue.str "tester")]),
         ("plugins", JValue.arr
           [JValue.obj
             [("name", JValue.str "p"),
              ("source", JValue.obj
                [("source", JValue.str "github"), ("repo", JValue.str "owner/repo")]),
              ("version", JValue.str "1.0.0"),
              ("description", JValue.str "same")]]),
         ("metadata", JValue.obj [("version", JValue.str "0.0.1")])] ∧
      metadataVersion res.1 = metadataVersion
        [("name", JValue.str "test-marketplace"),
         ("owner", JValue.obj [("name", JValue.str "tester")]),
         ("plugins", JValue.arr
           [JValue.obj
             [("name", JValue.str "p"),
              ("source", JValue.obj
                [("source", JValue.str "github"), ("repo", JValue.str "owner/repo")]),
              ("version", JValue.str "1.0.0"),
              ("description", JValue.str "same")]]),
         ("metadata", JValue.obj [("version", JValue.str "0.0.1")])]) ∧
    metadataVersion
        [("name", JValue.str "test-marketplace"),
         ("owner", JValue.obj [("name", JValue.str "tester")]),
         ("plugins", JValue.arr
           [JValue.obj
             [("name", JValue.str "p"),
              ("source", JValue.obj
                [("source", JValue.str "github"), ("repo", JValue.str "owner/repo")]),
              ("version", JValue.str "1.0.0"),
              ("description", JValue.str "same")]]),
         ("metadata", JValue.obj [("version", JValue.str "0.0.1")])]
      = some (JValue.str "0.0.1") := by
  refine ⟨cmd_refresh_core_noop _ _
    [JValue.obj
      [("name", JValue.str "p"),
       ("source", JValue.obj
         [("source", JValue.str "github"), ("repo", JValue.str "owner/repo")]),
       ("version", JValue.str "1.0.0"),
       ("description", JValue.str "same")]]
    rfl (by decide) ?_, rfl⟩
  intro j hj
  cases j with
  | zero => exact ⟨false, rfl⟩
  | succ n => exact absurd hj (by simp)

/- ── Lemmas and claim theorems: version bumping ─────────────────────── -/

theorem natDigits_chars : ∀ (fuel n : Nat) (acc : List Char),
    ∀ c ∈ natDigits fuel n acc, c.isDigit = true ∨ c ∈ acc := by
  intro fuel
  induction fuel with
  | zero => intro n acc c hc; exact Or.inr hc
  | succ f ih =>
    intro n acc c hc
    unfold natDigits at hc
    by_cases hn : (n == 0) = true
    · rw [if_pos hn] at hc
      exact Or.inr hc
    · rw [if_neg hn] at hc
      rcases ih (n / 10) _ c hc with h | h
      · exact Or.inl h
      · rcases List.mem_cons.mp h with h | h
        · left
          obtain ⟨r, hr, hre⟩ : ∃ r, r < 10 ∧ n % 10 = r :=
            ⟨n % 10, Nat.mod_lt n (by omega), rfl⟩
          rw [hre] at h
          subst h
          interval_cases r <;> decide
        · exact Or.inr h

theorem natChars_digits (n : Nat) : ∀ c ∈ natChars n, c.isDigit = true := by
  intro c hc
  unfold natChars at hc
  by_cases hn : (n == 0) = true
  · rw [if_pos hn] at hc
    simp at hc
    subst hc
    decide
  · rw [if_neg hn] at hc
    rcases natDigits_chars (n + 1) n [] c hc with h | h
    · exact h
    · simp at h

theorem coreChars_no_suffix (ma mi pa : Nat) :
    ∀ c ∈ coreChars ma mi pa, c ≠ '-' ∧ c ≠ '+' := by
  intro c hc
  unfold coreChars at hc
  have hd : c.isDigit = true ∨ c = '.' := by
    rcases List.mem_append.mp hc with h | h
    · rcases List.mem_append.mp h with h1 | h1
      · exact Or.inl (natChars_digits ma c h1)
      · rcases List.mem_cons.mp h1 with h2 | h2
        · exact Or.inr h2
        · exact Or.inl (natChars_digits mi c h2)
    · rcases List.mem_cons.mp h with h1 | h1
      · exact Or.inr h1
      · exact Or.inl (natChars_digits pa c h1)
  rcases hd with h | h
  · constructor <;> intro he <;> rw [he] at h <;> exact absurd h (by decide)
  · subst h
    exact ⟨by decide, by decide⟩

/-- C6: for every valid semantic version: with a pre-release suffix the
bump finalizes the core (all suffixes stripped); otherwise it increments
the patch component and discards any build metadata; in both branches the
output contains no `-` and no `+`, hence no pre-release or build suffix. -/
theorem bump_version_valid (s : String) (v : SemVer)
    (h : parse_semver s = some v) :
    bump_version s =
      .ok (if v.prerelease.isSome then
            String.mk (coreChars v.major v.minor v.patch)
          else String.mk (coreChars v.major v.minor (v.patch + 1))) ∧
    ∀ r, bump_version s = .ok r → ∀ c ∈ r.data, c ≠ '-' ∧ c ≠ '+' := by
  constructor
  · unfold bump_version
    rw [h]
    by_cases hp : v.prerelease.isSome <;> simp [hp]
  · intro r hr c hc
    unfold bump_version at hr
    rw [h] at hr
    have hr2 : (if v.prerelease.isSome = true then
          Except.ok (String.mk (coreChars v.major v.minor v.patch))
        else Except.ok (String.mk (coreChars v.major v.minor (v.patch + 1))))
        = Except.ok r := hr
    by_cases hp : v.prerelease.isSome
    · rw [if_pos hp] at hr2
      have hre := Except.ok.inj hr2
      rw [← hre] at hc
      exact coreChars_no_suffix _ _ _ c hc
    · rw [if_neg hp] at hr2
      have hre := Except.ok.inj hr2
      rw [← hre] at hc
      exact coreChars_no_suffix _ _ _ c hc

theorem bump_version_valid_witness :
    (parse_semver "1.0.0-rc.1"
      = some ⟨1, 0, 0, some ['r', 'c', '.', '1'], none⟩) ∧
    bump_version "1.0.0-rc.1" = .ok "1.0.0" ∧
    bump_version "1.2.3+build.9" = .ok "1.2.4" := by
  refine ⟨rfl, ?_, rfl⟩
  rw [(bump_version_valid "1.0.0-rc.1"
    ⟨1, 0, 0, some ['r', 'c', '.', '1'], none⟩ rfl).1]
  rfl

/-- C7: for every input string that is not a valid semantic version per
the grammar (three-component numeric core without leading zeros, optional
pre-release and build suffixes), `bump_version` returns the typed
`InvalidVersionError` rather than a value; in particular on the spec's
examples. -/
theorem bump_version_invalid :
    (∀ s, parse_semver s = none →
        bump_version s = .error InvalidVersionError.invalidVersion) ∧
    bump_version "" = .error .invalidVersion ∧
    bump_version "1" = .error .invalidVersion ∧
    bump_version "1.2" = .error .invalidVersion ∧
    bump_version "01.2.3" = .error .invalidVersion ∧
    bump_version "v1.2.3" = .error .invalidVersion := by
  refine ⟨?_, rfl, rfl, rfl, rfl, rfl⟩
  intro s h
  unfold bump_version
  rw [h]

theorem bump_version_invalid_witness :
    parse_semver "01.2.3" = none ∧
    bump_version "01.2.3" = .error InvalidVersionError.invalidVersion :=
  ⟨rfl, bump_version_invalid.1 "01.2.3" rfl⟩
